import Mathlib

/-!
# Verification of the `ctor<T>` construction-descriptor engine

Shallow embedding of `src/src/ctor.ts` (the second, current revision of the
file; the first revision's field-accumulation strategy is embedded separately
for the refinement claim). The embedding models:

* JavaScript records (own enumerable string-keyed properties, insertion
  ordered, assignment overwrites in place) as association lists;
* declared classes as a numeric identity, an initializer (per the library's
  documented contract, initializers only assign fields, so they are modelled
  as producing an ordered list of field assignments, or failing), and the
  class prototype's own method table (method bodies are identified by numeric
  ids; the `constructor` own property of a prototype is modelled by the class
  identity stored at each prototype level);
* the synthetic prototype chain built by `constructOn` as an inductive chain
  of per-level dispatch tables ending at `Base.prototype`;
* the lazily installed `Symbol.hasInstance` predicates as an association list
  from class identity to the descriptor whose bound `hasInstance` was
  installed.  Per the library's usage contract (README: subclasses extend
  `Implementation<T>()`, never a real class), a class's own static lookup of
  `Symbol.hasInstance` is either its own installed property or the default,
  so the installation guard is modelled as a lookup in that association list.
-/

namespace CtorExp

/-- Primitive JavaScript values stored in fields. -/
inductive Value where
  | vStr (s : String)
  | vNat (n : Nat)
  | vBool (b : Bool)
deriving DecidableEq

/-- Errors thrown by initializers (arbitrary thrown values, kept opaque). -/
abbrev JsErr := String

/-- A JavaScript record: own enumerable string-keyed properties in insertion
order. -/
abbrev Fields := List (String × Value)

/-- Property assignment `obj[k] = v`: overwrite in place when the key exists,
append otherwise (JavaScript insertion-order semantics). -/
def setField : Fields → String → Value → Fields
  | [], k, v => [(k, v)]
  | (k1, v1) :: rest, k, v =>
      if k1 = k then (k1, v) :: rest else (k1, v1) :: setField rest k v

/-- Property read `obj[k]` on own properties. -/
def getField : Fields → String → Option Value
  | [], _ => none
  | (k1, v1) :: rest, k => if k1 = k then some v1 else getField rest k

/-- Perform a sequence of property assignments on a record. -/
def assignEntries (s : Fields) (es : Fields) : Fields :=
  es.foldl (fun a kv => setField a kv.1 kv.2) s

/-- The value of the last assignment to key `k` in an assignment stream. -/
def lastVal : Fields → String → Option Value
  | [], _ => none
  | (k1, v1) :: rest, k =>
      match lastVal rest k with
      | some v => some v
      | none => if k1 = k then some v1 else none

/-- A declared type: identity, initializer, and prototype method table.
The initializer is the class's constructor body; per the library contract it
only assigns fields, modelled as the ordered list of assignments it performs
(or the error it throws). -/
structure Class where
  cid : Nat
  init : List Value → Except JsErr Fields
  methods : List (String × Nat)

/-- Identity of the `Base` class (`Base.prototype.constructor`). -/
def baseCid : Nat := 0

/-- A prototype chain.  `basePrototype` is `Base.prototype` (holding the
`_super` getter, constructor `Base`); `objectPrototype` is `Object.prototype`
(where `getPrototypeConstructors`' walk stops); `level` is one synthetic
per-instance dispatch table: the copy of a class's own prototype properties
(its methods and its `constructor`) whose prototype is the next table. -/
inductive Proto where
  | objectPrototype
  | basePrototype
  | level (clazz : Class) (parent : Proto)

/-- Look up a name in a class's own method table. -/
def lookupOwn : List (String × Nat) → String → Option Nat
  | [], _ => none
  | (m1, id1) :: rest, m => if m1 = m then some id1 else lookupOwn rest m

/-- Property lookup along a prototype chain (methods only; `Base.prototype`
contributes no plainly named method, its only member is the `_super` getter
which is modelled separately by `superAccess`). -/
def lookupMethod : Proto → String → Option Nat
  | .objectPrototype, _ => none
  | .basePrototype, _ => none
  | .level c p, m =>
      match lookupOwn c.methods m with
      | some mid => some mid
      | none => lookupMethod p m

/-- `getPrototypeConstructors` (ctor.ts 446-452): walk the prototype chain of
an object, yielding each prototype's `constructor` until it is `Object`.
Each synthetic level yields its class; `Base.prototype` yields `Base`, and
its prototype `Object.prototype` stops the walk. -/
def getPrototypeConstructors : Proto → List Nat
  | .objectPrototype => []
  | .basePrototype => [baseCid]
  | .level c p => c.cid :: getPrototypeConstructors p

/-- The construction descriptor `ctor<T>` (ctor.ts 280-323): an optional
parent descriptor, the class to construct, and its captured parameters.
`base` is a descriptor with `parentCtor === undefined`; `extend parent c ps`
is the descriptor produced by `parent.extend(c, ...ps)` (ctor.ts 436-442). -/
inductive ctor where
  | base (clazz : Class) (params : List Value)
  | extend (parentCtor : ctor) (clazz : Class) (params : List Value)

/-- `ctor.new(clazz, ...params)` (ctor.ts 429-434): a root descriptor. -/
def ctor.new (clazz : Class) (params : List Value) : ctor :=
  .base clazz params

/-- The class a descriptor constructs (`this.ctor`). -/
def ctor.clazzOf : ctor → Class
  | .base c _ => c
  | .extend _ c _ => c

/-- The captured parameters (`this.params`). -/
def ctor.paramsOf : ctor → List Value
  | .base _ ps => ps
  | .extend _ _ ps => ps

/-- The parent descriptor (`this.parentCtor`). -/
def ctor.parentCtorOf : ctor → Option ctor
  | .base _ _ => none
  | .extend p _ _ => some p

/-- `Extended<Parent>` (ctor.ts 455-504): wraps one parent descriptor. -/
structure Extended where
  parentCtor : ctor

/-- `Extended.new(child, ...params)` (ctor.ts 462-467): delegates to
`parentCtor.extend`. -/
def Extended.new (e : Extended) (child : Class) (params : List Value) : ctor :=
  ctor.extend e.parentCtor child params

/-- `from(superCtor)` (ctor.ts 510-512).  Named `fromCtor` because `from` is
a Lean keyword. -/
def fromCtor (superCtor : ctor) : Extended :=
  ⟨superCtor⟩

/-- The installed `Symbol.hasInstance` predicates: class identity mapped to
the descriptor whose bound `hasInstance` was installed on that class. -/
abbrev ArmState := List (Nat × ctor)

/-- Look up the installed predicate for a class identity. -/
def lookupArm : ArmState → Nat → Option ctor
  | [], _ => none
  | (c, d) :: rest, x => if c = x then some d else lookupArm rest x

/-- The `Symbol.hasInstance` installation in `constructOn` (ctor.ts 384-388):
guarded by `this.ctor[Symbol.hasInstance] === Object[Symbol.hasInstance]`
(modelled: the class identity is not yet armed), it installs
`this.hasInstance.bind(this)` (modelled: record the current descriptor). -/
def armOnce (st : ArmState) (d : ctor) : ArmState :=
  match lookupArm st (ctor.clazzOf d).cid with
  | some _ => st
  | none => ((ctor.clazzOf d).cid, d) :: st

/-- `ctor.hasInstance` (ctor.ts 401-406): true when the class of this
descriptor occurs among the candidate's prototype-chain constructors,
otherwise defer to the parent descriptor's `hasInstance` (false at a root). -/
def ctor.hasInstance : ctor → Proto → Bool
  | .base clazz _, protos =>
      (getPrototypeConstructors protos).contains clazz.cid
  | .extend parentCtor clazz _, protos =>
      (getPrototypeConstructors protos).contains clazz.cid
        || ctor.hasInstance parentCtor protos

/-- `instance instanceof X` once `X` has been armed: `X[Symbol.hasInstance]`
is the bound `hasInstance` of the descriptor that armed `X`; `none` when `X`
is not armed. -/
def armedInstanceOf (st : ArmState) (x : Nat) (protos : Proto) : Option Bool :=
  (lookupArm st x).map (fun d => ctor.hasInstance d protos)

/-- `ctor.constructOn` (ctor.ts 352-394, the current revision): recursively
construct the parent first (its prototype defaulting to `Base.prototype`),
then run this level's initializer through a real `new` producing a fresh
object whose own enumerable entries are copied onto the shared `self`, build
this level's dispatch table (the copy of the class prototype's own
properties), install `Symbol.hasInstance` if still the default, and chain the
table onto the parent's.  The arming state is threaded through even when an
initializer throws (side effects performed before the throw persist). -/
def ctor.constructOn :
    ctor → Fields → ArmState → Except JsErr (Fields × Proto) × ArmState
  | .base clazz params, self, st =>
      match clazz.init params with
      | .error e => (.error e, st)
      | .ok entries =>
          let constructed := assignEntries [] entries
          let self1 := assignEntries self constructed
          let st1 := armOnce st (.base clazz params)
          (.ok (self1, .level clazz .basePrototype), st1)
  | .extend parentCtor clazz params, self, st =>
      match ctor.constructOn parentCtor self st with
      | (.error e, st1) => (.error e, st1)
      | (.ok (self1, parentProto), st1) =>
          match clazz.init params with
          | .error e => (.error e, st1)
          | .ok entries =>
              let constructed := assignEntries [] entries
              let self2 := assignEntries self1 constructed
              let st2 := armOnce st1 (.extend parentCtor clazz params)
              (.ok (self2, .level clazz parentProto), st2)

/-- A materialized runtime instance: the accumulator record and the synthetic
prototype chain attached to it. -/
structure Instance where
  fields : Fields
  protos : Proto

/-- `ctor.construct` (ctor.ts 326-339): allocate a fresh `self = {}`, run
`constructOn`, attach the resulting prototype chain. -/
def ctor.construct (c : ctor) (st : ArmState) :
    Except JsErr Instance × ArmState :=
  match ctor.constructOn c [] st with
  | (.ok (fields, proto), st1) => (.ok ⟨fields, proto⟩, st1)
  | (.error e, st1) => (.error e, st1)

/-- Field accumulation of the first revision's `constructOn`
(ctor.ts 79-111): `this.ctor.apply(obj, this.params)` performs the
initializer's assignments directly on the shared accumulator. -/
def ctor.constructOnApply : ctor → Fields → Except JsErr Fields
  | .base clazz params, self =>
      (clazz.init params).map (fun es => assignEntries self es)
  | .extend parentCtor clazz params, self =>
      (ctor.constructOnApply parentCtor self).bind (fun self1 =>
        (clazz.init params).map (fun es => assignEntries self1 es))

/-- The `_super` getter (ctor.ts 545-559): from the receiver, take
`thisClass := Object.getPrototypeOf(this)` (the receiver's leaf dispatch
table) and `superClass := Object.getPrototypeOf(thisClass)`; reading a method
name from the returned proxy resolves it along `superClass`'s chain and
rebinds it to the receiver.  Note the computation depends only on the
receiver, never on the dispatch table of the currently executing method. -/
def superAccess (receiver : Instance) (m : String) : Option Nat :=
  match receiver.protos with
  | .level _ parent => lookupMethod parent m
  | _ => none

/-- The classes of a descriptor chain, leaf first. -/
def ctor.chainClasses : ctor → List Class
  | .base c _ => [c]
  | .extend p c _ => c :: ctor.chainClasses p

/-- The class identities of a descriptor chain, leaf first. -/
def ctor.chainCids (c : ctor) : List Nat :=
  (ctor.chainClasses c).map Class.cid

/-- The concatenated assignment streams of all initializers in root-to-leaf
order (or the first initializer error in that order). -/
def ctor.flatEntries : ctor → Except JsErr Fields
  | .base c ps => c.init ps
  | .extend p c ps =>
      (ctor.flatEntries p).bind (fun pre =>
        (c.init ps).map (fun es => pre ++ es))

/-- The error of the first failing initializer, root-to-leaf order. -/
def ctor.firstInitError : ctor → Option JsErr
  | .base c ps =>
      match c.init ps with
      | .error e => some e
      | .ok _ => none
  | .extend p c ps =>
      match ctor.firstInitError p with
      | some e => some e
      | none =>
          match c.init ps with
          | .error e => some e
          | .ok _ => none

/-- The synthetic prototype chain for a leaf-first list of classes. -/
def buildProto : List Class → Proto
  | [] => .basePrototype
  | c :: cs => .level c (buildProto cs)

/-- Projection helpers for stating claims decidably. -/
def errOf : Except JsErr α → Option JsErr
  | .error e => some e
  | .ok _ => none

def okOf : Except JsErr α → Option α
  | .error _ => none
  | .ok a => some a

/-! ## Record lemmas -/

theorem getField_setField (s : Fields) (k k2 : String) (v : Value) :
    getField (setField s k v) k2 = if k = k2 then some v else getField s k2 := by
  induction s with
  | nil =>
      by_cases h : k = k2 <;> simp [setField, getField, h]
  | cons hd tl ih =>
      obtain ⟨k1, v1⟩ := hd
      by_cases h1 : k1 = k
      · subst h1
        by_cases h2 : k1 = k2 <;> simp [setField, getField, h2]
      · by_cases h2 : k1 = k2
        · subst h2
          simp [setField, getField, h1, Ne.symm h1]
        · simp [setField, getField, h1, h2, ih]

theorem assignEntries_nil (s : Fields) : assignEntries s [] = s := rfl

theorem assignEntries_cons (s : Fields) (k : String) (v : Value) (es : Fields) :
    assignEntries s ((k, v) :: es) = assignEntries (setField s k v) es := rfl

theorem getField_assignEntries (es : Fields) (k : String) :
    ∀ s : Fields, getField (assignEntries s es) k =
      match lastVal es k with
      | some v => some v
      | none => getField s k := by
  induction es with
  | nil => intro s; simp [assignEntries, lastVal]
  | cons hd tl ih =>
      intro s
      obtain ⟨k1, v1⟩ := hd
      rw [assignEntries_cons, ih]
      cases h : lastVal tl k with
      | some v => simp [lastVal, h]
      | none =>
          by_cases h1 : k1 = k <;>
            simp [lastVal, h, h1, getField_setField]

theorem lastVal_append (xs ys : Fields) (k : String) :
    lastVal (xs ++ ys) k =
      match lastVal ys k with
      | some v => some v
      | none => lastVal xs k := by
  induction xs with
  | nil => cases h : lastVal ys k <;> simp [lastVal, h]
  | cons hd tl ih =>
      obtain ⟨k1, v1⟩ := hd
      cases h : lastVal ys k with
      | some v => simp [lastVal, List.cons_append, ih, h]
      | none => simp [lastVal, List.cons_append, ih, h]

/-- Keys of a record, in order. -/
def keysOf : Fields → List String
  | [] => []
  | (k, _) :: rest => k :: keysOf rest

/-- A record whose keys are pairwise distinct (true of every record that
arises as a JavaScript object's own properties). -/
abbrev nodupKeys (s : Fields) : Prop := (keysOf s).Nodup

theorem setField_of_notMem (s : Fields) (k : String) (v : Value)
    (h : k ∉ keysOf s) : setField s k v = s ++ [(k, v)] := by
  induction s with
  | nil => rfl
  | cons hd tl ih =>
      obtain ⟨k1, v1⟩ := hd
      simp only [keysOf, List.mem_cons, not_or] at h
      have hne : ¬k1 = k := fun h2 => h.1 h2.symm
      simp [setField, hne, ih h.2]

theorem keysOf_setField_of_mem (s : Fields) (k : String) (v : Value)
    (h : k ∈ keysOf s) : keysOf (setField s k v) = keysOf s := by
  induction s with
  | nil => simp [keysOf] at h
  | cons hd tl ih =>
      obtain ⟨k1, v1⟩ := hd
      by_cases h1 : k1 = k
      · simp [setField, h1, keysOf]
      · simp only [keysOf, List.mem_cons] at h
        rcases h with h | h
        · exact absurd h.symm h1
        · simp [setField, h1, keysOf, ih h]

theorem nodupKeys_setField (s : Fields) (k : String) (v : Value)
    (h : nodupKeys s) : nodupKeys (setField s k v) := by
  by_cases hm : k ∈ keysOf s
  · unfold nodupKeys
    rw [keysOf_setField_of_mem s k v hm]
    exact h
  · unfold nodupKeys
    rw [setField_of_notMem s k v hm]
    have hkeys : keysOf (s ++ [(k, v)]) = keysOf s ++ [k] := by
      clear h hm
      induction s with
      | nil => rfl
      | cons hd tl ih => obtain ⟨k1, v1⟩ := hd; simp [keysOf, ih]
    rw [hkeys]
    rw [List.nodup_append]
    exact ⟨h, List.nodup_singleton k, by
      intro a ha hak
      simp at hak
      exact hm (hak ▸ ha)⟩

theorem nodupKeys_assignEntries (es : Fields) :
    ∀ s : Fields, nodupKeys s → nodupKeys (assignEntries s es) := by
  induction es with
  | nil => intro s h; exact h
  | cons hd tl ih =>
      intro s h
      rw [show hd = (hd.1, hd.2) from rfl, assignEntries_cons]
      exact ih _ (nodupKeys_setField s hd.1 hd.2 h)

theorem getField_of_notMem (s : Fields) (k : String) (h : k ∉ keysOf s) :
    getField s k = none := by
  induction s with
  | nil => rfl
  | cons hd tl ih =>
      obtain ⟨k1, v1⟩ := hd
      simp only [keysOf, List.mem_cons, not_or] at h
      have hne : ¬k1 = k := fun h2 => h.1 h2.symm
      simp [getField, hne, ih h.2]

theorem lastVal_of_notMem (s : Fields) (k : String) (h : k ∉ keysOf s) :
    lastVal s k = none := by
  induction s with
  | nil => rfl
  | cons hd tl ih =>
      obtain ⟨k1, v1⟩ := hd
      simp only [keysOf, List.mem_cons, not_or] at h
      have hne : ¬k1 = k := fun h2 => h.1 h2.symm
      simp [lastVal, ih h.2, hne]

theorem lastVal_eq_getField_of_nodup (s : Fields) (k : String)
    (h : nodupKeys s) : lastVal s k = getField s k := by
  induction s with
  | nil => rfl
  | cons hd tl ih =>
      obtain ⟨k1, v1⟩ := hd
      unfold nodupKeys at h
      simp only [keysOf, List.nodup_cons] at h
      by_cases h1 : k1 = k
      · subst h1
        rw [show lastVal ((k1, v1) :: tl) k1 =
              (match lastVal tl k1 with
               | some v => some v
               | none => some v1) from by simp [lastVal]]
        rw [lastVal_of_notMem tl k1 h.1]
        simp [getField]
      · have hstep : lastVal ((k1, v1) :: tl) k = lastVal tl k := by
          simp only [lastVal]
          cases lastVal tl k <;> simp [h1]
        rw [hstep, ih h.2]
        simp [getField, h1]

theorem lastVal_assignEntries_nil (es : Fields) (k : String) :
    lastVal (assignEntries [] es) k = lastVal es k := by
  rw [lastVal_eq_getField_of_nodup _ k
        (nodupKeys_assignEntries es [] (by simp [nodupKeys, keysOf]))]
  rw [getField_assignEntries]
  cases h : lastVal es k <;> simp [getField]

/-- The new-and-copy strategy is field-extensionally the same as assigning
the raw entry stream directly. -/
theorem getField_assign_copy (s es : Fields) (k : String) :
    getField (assignEntries s (assignEntries [] es)) k =
      getField (assignEntries s es) k := by
  rw [getField_assignEntries, getField_assignEntries, lastVal_assignEntries_nil]

theorem mem_keysOf_of_mem (s : Fields) (k : String) (v : Value)
    (h : (k, v) ∈ s) : k ∈ keysOf s := by
  induction s with
  | nil => simp at h
  | cons hd tl ih =>
      obtain ⟨k1, v1⟩ := hd
      rcases List.mem_cons.mp h with heq | htl
      · simp [keysOf, (Prod.mk.injEq .. ▸ heq).1]
      · simp [keysOf, ih htl]

theorem getField_mem_of_nodup (s : Fields) (k : String) (v : Value)
    (hmem : (k, v) ∈ s) (h : nodupKeys s) : getField s k = some v := by
  induction s with
  | nil => simp at hmem
  | cons hd tl ih =>
      obtain ⟨k1, v1⟩ := hd
      unfold nodupKeys at h
      simp only [keysOf, List.nodup_cons] at h
      rcases List.mem_cons.mp hmem with heq | htl
      · obtain ⟨h1, h2⟩ := Prod.mk.injEq .. ▸ heq
        simp [getField, h1.symm, h2]
      · have hk1 : k1 ≠ k := by
          intro hk
          subst hk
          exact h.1 (mem_keysOf_of_mem tl k1 v htl)
        simp [getField, hk1, ih htl h.2]

/-! ## Structural lemmas about `constructOn` and `construct` -/

/-- Method resolution walking a leaf-first list of classes (the order of the
synthetic ancestry). -/
def lookupLeafFirst : List Class → String → Option Nat
  | [], _ => none
  | c :: cs, m =>
      match lookupOwn c.methods m with
      | some mid => some mid
      | none => lookupLeafFirst cs m

theorem gpc_buildProto (ls : List Class) :
    getPrototypeConstructors (buildProto ls) = ls.map Class.cid ++ [baseCid] := by
  induction ls with
  | nil => rfl
  | cons c cs ih => simp [buildProto, getPrototypeConstructors, ih]

theorem lookupMethod_buildProto (ls : List Class) (m : String) :
    lookupMethod (buildProto ls) m = lookupLeafFirst ls m := by
  induction ls with
  | nil => rfl
  | cons c cs ih => simp only [buildProto, lookupMethod, lookupLeafFirst, ih]

theorem constructOn_ok (D : ctor) : ∀ (self : Fields) (st : ArmState)
    (flat : Fields), ctor.flatEntries D = .ok flat →
    ∃ f, (ctor.constructOn D self st).1 =
        .ok (f, buildProto (ctor.chainClasses D)) ∧
      ∀ k, getField f k =
        match lastVal flat k with
        | some v => some v
        | none => getField self k := by
  induction D with
  | base clazz params =>
      intro self st flat hflat
      have hinit : clazz.init params = .ok flat := hflat
      refine ⟨assignEntries self (assignEntries [] flat), ?_, ?_⟩
      · simp [ctor.constructOn, hinit, ctor.chainClasses, buildProto]
      · intro k
        rw [getField_assign_copy, getField_assignEntries]
  | extend parent clazz params ih =>
      intro self st flat hflat
      simp only [ctor.flatEntries] at hflat
      cases hp : ctor.flatEntries parent with
      | error e => rw [hp] at hflat; simp [Except.bind] at hflat
      | ok pre =>
          rw [hp] at hflat
          cases hinit : clazz.init params with
          | error e =>
              rw [hinit] at hflat
              simp [Except.bind, Except.map] at hflat
          | ok es =>
              rw [hinit] at hflat
              simp only [Except.bind, Except.map] at hflat
              have hfl : pre ++ es = flat := by
                injection hflat
              subst hfl
              obtain ⟨f1, hok1, hf1⟩ := ih self st pre hp
              rcases hcp : ctor.constructOn parent self st with ⟨r1, st1⟩
              rw [hcp] at hok1
              simp only at hok1
              refine ⟨assignEntries f1 (assignEntries [] es), ?_, ?_⟩
              · simp only [ctor.constructOn, hcp, hok1, hinit,
                  ctor.chainClasses, buildProto]
              · intro k
                rw [getField_assign_copy, getField_assignEntries, lastVal_append]
                cases hes : lastVal es k with
                | some v => simp
                | none => simp [hf1 k]

theorem constructOn_error (D : ctor) : ∀ (self : Fields) (st : ArmState)
    (e : JsErr), ctor.flatEntries D = .error e →
    (ctor.constructOn D self st).1 = .error e := by
  induction D with
  | base clazz params =>
      intro self st e hflat
      have hinit : clazz.init params = .error e := hflat
      simp [ctor.constructOn, hinit]
  | extend parent clazz params ih =>
      intro self st e hflat
      simp only [ctor.flatEntries] at hflat
      cases hp : ctor.flatEntries parent with
      | error e0 =>
          rw [hp] at hflat
          simp only [Except.bind] at hflat
          have he : e0 = e := by injection hflat
          subst he
          have hperr := ih self st e0 hp
          rcases hcp : ctor.constructOn parent self st with ⟨r1, st1⟩
          rw [hcp] at hperr
          simp only at hperr
          simp only [ctor.constructOn, hcp, hperr]
      | ok pre =>
          rw [hp] at hflat
          cases hinit : clazz.init params with
          | error e0 =>
              rw [hinit] at hflat
              simp only [Except.bind, Except.map] at hflat
              have he : e0 = e := by injection hflat
              subst he
              obtain ⟨f1, hok1, _⟩ := constructOn_ok parent self st pre hp
              rcases hcp : ctor.constructOn parent self st with ⟨r1, st1⟩
              rw [hcp] at hok1
              simp only at hok1
              simp only [ctor.constructOn, hcp, hok1, hinit]
          | ok es =>
              rw [hinit] at hflat
              simp [Except.bind, Except.map] at hflat

theorem flatEntries_error_eq (D : ctor) :
    errOf (ctor.flatEntries D) = ctor.firstInitError D := by
  induction D with
  | base clazz params =>
      cases hinit : clazz.init params <;>
        simp [ctor.flatEntries, ctor.firstInitError, errOf, hinit]
  | extend parent clazz params ih =>
      cases hp : ctor.flatEntries parent with
      | error e =>
          rw [hp] at ih
          cases hinit : clazz.init params <;>
            simp [ctor.flatEntries, ctor.firstInitError, errOf, hinit, hp, ← ih,
              Except.bind]
      | ok pre =>
          rw [hp] at ih
          cases hinit : clazz.init params <;>
            simp [ctor.flatEntries, ctor.firstInitError, errOf, hinit, hp, ← ih,
              Except.bind, Except.map]

theorem lookupArm_armOnce_of_some (st : ArmState) (d : ctor) (x : Nat)
    (a : ctor) (h : lookupArm st x = some a) :
    lookupArm (armOnce st d) x = some a := by
  unfold armOnce
  cases hl : lookupArm st (ctor.clazzOf d).cid with
  | some b => exact h
  | none =>
      simp only [lookupArm]
      by_cases hx : (ctor.clazzOf d).cid = x
      · rw [hx] at hl
        rw [hl] at h
        cases h
      · simp [hx, h]

theorem lookupArm_armOnce_isSome (st : ArmState) (d : ctor) (x : Nat)
    (h : (lookupArm st x).isSome = true) :
    (lookupArm (armOnce st d) x).isSome = true := by
  cases hl : lookupArm st x with
  | none => rw [hl] at h; cases h
  | some a => rw [lookupArm_armOnce_of_some st d x a hl]; rfl

theorem lookupArm_armOnce_self (st : ArmState) (d : ctor) :
    (lookupArm (armOnce st d) (ctor.clazzOf d).cid).isSome = true := by
  unfold armOnce
  cases hl : lookupArm st (ctor.clazzOf d).cid with
  | some a => simp [hl]
  | none => simp [lookupArm]

theorem constructOn_preserves_arm (D : ctor) : ∀ (self : Fields)
    (st : ArmState) (x : Nat) (a : ctor), lookupArm st x = some a →
    lookupArm (ctor.constructOn D self st).2 x = some a := by
  induction D with
  | base clazz params =>
      intro self st x a h
      cases hinit : clazz.init params with
      | error e => simpa [ctor.constructOn, hinit] using h
      | ok es =>
          simp only [ctor.constructOn, hinit]
          exact lookupArm_armOnce_of_some st _ x a h
  | extend parent clazz params ih =>
      intro self st x a h
      have hpar := ih self st x a h
      rcases hcp : ctor.constructOn parent self st with ⟨r1, st1⟩
      rw [hcp] at hpar
      simp only at hpar
      cases r1 with
      | error e => simpa [ctor.constructOn, hcp] using hpar
      | ok fp =>
          obtain ⟨f1, pp⟩ := fp
          cases hinit : clazz.init params with
          | error e => simpa [ctor.constructOn, hcp, hinit] using hpar
          | ok es =>
              simp only [ctor.constructOn, hcp, hinit]
              exact lookupArm_armOnce_of_some st1 _ x a hpar

theorem constructOn_arms_chain (D : ctor) : ∀ (self : Fields) (st : ArmState)
    (f : Fields) (p : Proto), (ctor.constructOn D self st).1 = .ok (f, p) →
    ∀ x ∈ ctor.chainCids D,
      (lookupArm (ctor.constructOn D self st).2 x).isSome = true := by
  induction D with
  | base clazz params =>
      intro self st f p hok x hx
      cases hinit : clazz.init params with
      | error e => simp [ctor.constructOn, hinit] at hok
      | ok es =>
          simp only [ctor.chainCids, ctor.chainClasses, List.map,
            List.mem_singleton] at hx
          subst hx
          simp only [ctor.constructOn, hinit]
          exact lookupArm_armOnce_self st (.base clazz params)
  | extend parent clazz params ih =>
      intro self st f p hok x hx
      rcases hcp : ctor.constructOn parent self st with ⟨r1, st1⟩
      cases r1 with
      | error e => simp [ctor.constructOn, hcp] at hok
      | ok fp =>
          obtain ⟨f1, pp⟩ := fp
          cases hinit : clazz.init params with
          | error e => simp [ctor.constructOn, hcp, hinit] at hok
          | ok es =>
              simp only [ctor.chainCids, ctor.chainClasses, List.map,
                List.mem_cons] at hx
              simp only [ctor.constructOn, hcp, hinit]
              rcases hx with hx | hx
              · subst hx
                exact lookupArm_armOnce_self st1 (.extend parent clazz params)
              · have := ih self st f1 pp (by rw [hcp]) x
                  (by simpa [ctor.chainCids] using hx)
                rw [hcp] at this
                simp only at this
                exact lookupArm_armOnce_isSome st1 _ x this

/-- Invariant of the arming state: the predicate installed on a class is the
bound `hasInstance` of a descriptor whose own class is that class. -/
def armInv (st : ArmState) : Bool :=
  st.all (fun p => (ctor.clazzOf p.2).cid == p.1)

theorem armInv_lookup (st : ArmState) (x : Nat) (d : ctor)
    (h : armInv st = true) (hl : lookupArm st x = some d) :
    (ctor.clazzOf d).cid = x := by
  induction st with
  | nil => cases hl
  | cons hd tl ih =>
      obtain ⟨c, a⟩ := hd
      simp only [armInv, List.all_cons, Bool.and_eq_true, beq_iff_eq] at h
      simp only [lookupArm] at hl
      by_cases hc : c = x
      · rw [if_pos hc] at hl
        have : a = d := by injection hl
        subst this
        rw [h.1, hc]
      · rw [if_neg hc] at hl
        exact ih h.2 hl

theorem armInv_armOnce (st : ArmState) (d : ctor) (h : armInv st = true) :
    armInv (armOnce st d) = true := by
  unfold armOnce
  cases hl : lookupArm st (ctor.clazzOf d).cid with
  | some a => exact h
  | none =>
      show armInv (((ctor.clazzOf d).cid, d) :: st) = true
      simp only [armInv, List.all_cons, beq_self_eq_true, Bool.true_and]
      exact h

theorem armInv_constructOn (D : ctor) : ∀ (self : Fields) (st : ArmState),
    armInv st = true → armInv (ctor.constructOn D self st).2 = true := by
  induction D with
  | base clazz params =>
      intro self st h
      cases hinit : clazz.init params with
      | error e => simpa [ctor.constructOn, hinit] using h
      | ok es =>
          simp only [ctor.constructOn, hinit]
          exact armInv_armOnce st _ h
  | extend parent clazz params ih =>
      intro self st h
      have hpar := ih self st h
      rcases hcp : ctor.constructOn parent self st with ⟨r1, st1⟩
      rw [hcp] at hpar
      simp only at hpar
      cases r1 with
      | error e => simpa [ctor.constructOn, hcp] using hpar
      | ok fp =>
          obtain ⟨f1, pp⟩ := fp
          cases hinit : clazz.init params with
          | error e => simpa [ctor.constructOn, hcp, hinit] using hpar
          | ok es =>
              simp only [ctor.constructOn, hcp, hinit]
              exact armInv_armOnce st1 _ hpar

theorem constructOn_fst_state_irrel (D : ctor) : ∀ (self : Fields)
    (st st2 : ArmState),
    (ctor.constructOn D self st).1 = (ctor.constructOn D self st2).1 := by
  induction D with
  | base clazz params =>
      intro self st st2
      cases hinit : clazz.init params <;> simp [ctor.constructOn, hinit]
  | extend parent clazz params ih =>
      intro self st st2
      rcases hcp : ctor.constructOn parent self st with ⟨r1, st1⟩
      rcases hcp2 : ctor.constructOn parent self st2 with ⟨r2, st3⟩
      have hr : r1 = r2 := by
        have := ih self st st2
        rw [hcp, hcp2] at this
        exact this
      subst hr
      cases r1 with
      | error e => simp [ctor.constructOn, hcp, hcp2]
      | ok fp =>
          obtain ⟨f1, pp⟩ := fp
          cases hinit : clazz.init params <;>
            simp [ctor.constructOn, hcp, hcp2, hinit]

theorem hasInstance_eq_any (d : ctor) (protos : Proto) :
    ctor.hasInstance d protos =
      (ctor.chainCids d).any
        (fun c => (getPrototypeConstructors protos).contains c) := by
  induction d with
  | base clazz params =>
      simp [ctor.hasInstance, ctor.chainCids, ctor.chainClasses]
  | extend parent clazz params ih =>
      simp [ctor.hasInstance, ctor.chainCids, ctor.chainClasses, ih]

theorem hasInstance_of_head_mem (d : ctor) (protos : Proto)
    (h : (getPrototypeConstructors protos).contains (ctor.clazzOf d).cid
          = true) :
    ctor.hasInstance d protos = true := by
  cases d with
  | base clazz params =>
      simp only [ctor.clazzOf] at h
      have hm : clazz.cid ∈ getPrototypeConstructors protos := by
        simpa using h
      simp [ctor.hasInstance, hm]
  | extend parent clazz params =>
      simp only [ctor.clazzOf] at h
      have hm : clazz.cid ∈ getPrototypeConstructors protos := by
        simpa using h
      simp [ctor.hasInstance, hm]

/-! ### `construct`-level corollaries -/

theorem construct_snd (D : ctor) (st : ArmState) :
    (ctor.construct D st).2 = (ctor.constructOn D [] st).2 := by
  rcases hcp : ctor.constructOn D [] st with ⟨r1, st1⟩
  cases r1 with
  | error e => simp [ctor.construct, hcp]
  | ok fp => obtain ⟨f1, pp⟩ := fp; simp [ctor.construct, hcp]

theorem construct_ok (D : ctor) (st : ArmState) (flat : Fields)
    (hflat : ctor.flatEntries D = .ok flat) :
    ∃ i, (ctor.construct D st).1 = .ok i ∧
      i.protos = buildProto (ctor.chainClasses D) ∧
      ∀ k, getField i.fields k = lastVal flat k := by
  obtain ⟨f, hok, hf⟩ := constructOn_ok D [] st flat hflat
  rcases hcp : ctor.constructOn D [] st with ⟨r1, st1⟩
  rw [hcp] at hok
  simp only at hok
  refine ⟨⟨f, buildProto (ctor.chainClasses D)⟩, ?_, rfl, ?_⟩
  · simp [ctor.construct, hcp, hok]
  · intro k
    rw [hf k]
    cases h : lastVal flat k <;> simp [getField]

theorem construct_error (D : ctor) (st : ArmState) (e : JsErr)
    (herr : ctor.flatEntries D = .error e) :
    (ctor.construct D st).1 = .error e := by
  have h := constructOn_error D [] st e herr
  rcases hcp : ctor.constructOn D [] st with ⟨r1, st1⟩
  rw [hcp] at h
  simp only at h
  simp [ctor.construct, hcp, h]

/-! ## Heap model for identity and aliasing claims -/

/-- A heap of materialized instances: a fresh-address counter and a store.
Only instance records live here; descriptors are immutable values. -/
structure Heap where
  nextAddr : Nat
  mem : List (Nat × Instance)

def lookupMem : List (Nat × Instance) → Nat → Option Instance
  | [], _ => none
  | (a, i) :: rest, x => if a = x then some i else lookupMem rest x

/-- Allocate a fresh object (`const self = {}` with its final contents). -/
def alloc (hp : Heap) (inst : Instance) : Nat × Heap :=
  (hp.nextAddr, ⟨hp.nextAddr + 1, (hp.nextAddr, inst) :: hp.mem⟩)

/-- `construct` with explicit allocation of the instance record.  On an
initializer failure no reference to the record escapes, so the discarded
allocation is modelled as not happening. -/
def constructH (c : ctor) (hp : Heap) (st : ArmState) :
    Except JsErr Nat × Heap × ArmState :=
  match ctor.construct c st with
  | (.ok inst, st1) =>
      let r := alloc hp inst
      (.ok r.1, r.2, st1)
  | (.error e, st1) => (.error e, hp, st1)

/-- Read field `k` of the instance stored at address `a`. -/
def heapField (hp : Heap) (a : Nat) (k : String) : Option Value :=
  (lookupMem hp.mem a).bind (fun i => getField i.fields k)

/-- Update the stored instance at address `a` with a field assignment. -/
def updateMem : List (Nat × Instance) → Nat → String → Value →
    List (Nat × Instance)
  | [], _, _, _ => []
  | (c, i) :: rest, a, k, v =>
      if c = a then (c, ⟨setField i.fields k v, i.protos⟩) :: rest
      else (c, i) :: updateMem rest a k v

/-- Mutate field `k` of the instance stored at address `a`. -/
def setInstField (hp : Heap) (a : Nat) (k : String) (v : Value) : Heap :=
  ⟨hp.nextAddr, updateMem hp.mem a k v⟩

theorem lookupMem_updateMem_ne (mem : List (Nat × Instance)) (a b : Nat)
    (k : String) (v : Value) (hne : a ≠ b) :
    lookupMem (updateMem mem a k v) b = lookupMem mem b := by
  induction mem with
  | nil => rfl
  | cons hd tl ih =>
      obtain ⟨c, i⟩ := hd
      by_cases hca : c = a
      · subst hca
        simp only [updateMem, if_pos rfl, lookupMem]
        rw [if_neg hne, if_neg hne]
      · simp only [updateMem, if_neg hca, lookupMem]
        by_cases hcb : c = b
        · rw [if_pos hcb, if_pos hcb]
        · rw [if_neg hcb, if_neg hcb, ih]

theorem heapField_setInstField_ne (hp : Heap) (a b : Nat) (k : String)
    (v : Value) (hne : a ≠ b) (k2 : String) :
    heapField (setInstField hp a k v) b k2 = heapField hp b k2 := by
  unfold heapField setInstField
  rw [lookupMem_updateMem_ne hp.mem a b k v hne]

theorem construct_fst_state_irrel (D : ctor) (st st2 : ArmState) :
    (ctor.construct D st).1 = (ctor.construct D st2).1 := by
  have h := constructOn_fst_state_irrel D [] st st2
  rcases h1 : ctor.constructOn D [] st with ⟨r1, s1⟩
  rcases h2 : ctor.constructOn D [] st2 with ⟨r2, s2⟩
  rw [h1, h2] at h
  simp only at h
  subst h
  cases r1 with
  | error e => simp [ctor.construct, h1, h2]
  | ok fp => obtain ⟨f, p⟩ := fp; simp [ctor.construct, h1, h2]

theorem construct_preserves_arm (D : ctor) (st : ArmState) (x : Nat)
    (a : ctor) (h : lookupArm st x = some a) :
    lookupArm (ctor.construct D st).2 x = some a := by
  rw [construct_snd]
  exact constructOn_preserves_arm D [] st x a h

theorem construct_arms_chain (D : ctor) (st : ArmState) (i : Instance)
    (hok : (ctor.construct D st).1 = .ok i) :
    ∀ x ∈ ctor.chainCids D,
      (lookupArm (ctor.construct D st).2 x).isSome = true := by
  intro x hx
  rw [construct_snd]
  rcases hcp : ctor.constructOn D [] st with ⟨r1, st1⟩
  cases r1 with
  | error e =>
      rw [show (ctor.construct D st).1 = .error e from
            by simp [ctor.construct, hcp]] at hok
      cases hok
  | ok fp =>
      obtain ⟨f, p⟩ := fp
      have h2 := constructOn_arms_chain D [] st f p (by rw [hcp]) x hx
      rw [hcp] at h2
      exact h2

theorem armInv_construct (D : ctor) (st : ArmState) (h : armInv st = true) :
    armInv (ctor.construct D st).2 = true := by
  rw [construct_snd]
  exact armInv_constructOn D [] st h

theorem flatEntries_ok_of_construct_ok (D : ctor) (st : ArmState)
    (h : (okOf (ctor.construct D st).1).isSome = true) :
    ∃ flat, ctor.flatEntries D = .ok flat := by
  cases hfe : ctor.flatEntries D with
  | error e => rw [construct_error D st e hfe] at h; simp [okOf] at h
  | ok flat => exact ⟨flat, rfl⟩

theorem clazzOf_mem_chainClasses (d : ctor) :
    ctor.clazzOf d ∈ ctor.chainClasses d := by
  cases d <;> simp [ctor.clazzOf, ctor.chainClasses]

theorem contains_of_mem (l : List Nat) (a : Nat) (h : a ∈ l) :
    l.contains a = true := by
  simpa using h

theorem lookupLeafFirst_isSome_of_mem (ls : List Class) (m : String)
    (c : Class) (hc : c ∈ ls) (hm : (lookupOwn c.methods m).isSome = true) :
    (lookupLeafFirst ls m).isSome = true := by
  induction ls with
  | nil => cases hc
  | cons hd tl ih =>
      simp only [lookupLeafFirst]
      cases hhd : lookupOwn hd.methods m with
      | some mid => simp
      | none =>
          simp only
          rcases List.mem_cons.mp hc with heq | htl
          · subst heq; rw [hhd] at hm; cases hm
          · exact ih htl

/-! ## Example declared types used by the witnesses and counterexamples -/

def fooClass : Class :=
  ⟨1, fun _ => .ok [("foo", .vStr "foo")], [("describe", 10)]⟩

def barClass : Class :=
  ⟨2, fun _ => .ok [("bar", .vStr "bar")], [("describe", 20)]⟩

def bazClass : Class :=
  ⟨3, fun _ => .ok [("baz", .vStr "baz")], [("stamp", 30)]⟩

def dFoo : ctor := ctor.new fooClass []

def dBar : ctor := (fromCtor dFoo).new barClass []

def dBaz : ctor := (fromCtor dBar).new bazClass []

/-- Two levels assigning the same field name `x`. -/
def rootShadow : Class := ⟨4, fun _ => .ok [("x", .vNat 1)], []⟩

def leafShadow : Class := ⟨5, fun _ => .ok [("x", .vNat 2)], []⟩

def dShadow : ctor := (fromCtor (ctor.new rootShadow [])).new leafShadow []

/-- A class whose initializer throws. -/
def failClass : Class := ⟨8, fun _ => .error "boom", []⟩

def dFail : ctor := (fromCtor (ctor.new fooClass [])).new failClass []

/-! ## Claim theorems -/

/-- C1: for a descriptor chain built by `ctor.new` at the root and
`from(...).new` for each child, with every initializer succeeding and field
names disjoint across (and within) levels, `construct()` returns one
instance that simultaneously carries every level's assigned fields with the
exact assigned values, resolves every method name by the leaf-first walk of
the synthetic ancestry, and thereby exposes every method of every level's
declared type. -/
theorem c1_chain_fields_and_methods (D : ctor) (st : ArmState)
    (flat : Fields) (hflat : ctor.flatEntries D = .ok flat)
    (hnd : nodupKeys flat) :
    ∃ i, (ctor.construct D st).1 = .ok i ∧
      (∀ k v, (k, v) ∈ flat → getField i.fields k = some v) ∧
      (∀ m, lookupMethod i.protos m =
        lookupLeafFirst (ctor.chainClasses D) m) ∧
      (∀ m c, c ∈ ctor.chainClasses D →
        (lookupOwn c.methods m).isSome = true →
        (lookupMethod i.protos m).isSome = true) := by
  obtain ⟨i, hok, hp, hf⟩ := construct_ok D st flat hflat
  refine ⟨i, hok, ?_, ?_, ?_⟩
  · intro k v hmem
    rw [hf k, lastVal_eq_getField_of_nodup flat k hnd]
    exact getField_mem_of_nodup flat k v hmem hnd
  · intro m
    rw [hp, lookupMethod_buildProto]
  · intro m c hc hm
    rw [hp, lookupMethod_buildProto]
    exact lookupLeafFirst_isSome_of_mem (ctor.chainClasses D) m c hc hm

/-- C1 witness: the three-level `Foo` / `Bar` / `Baz` chain of the test
suite, with `foo="foo"`, `bar="bar"`, `baz="baz"`. -/
theorem c1_witness :
    ctor.flatEntries dBaz =
      .ok [("foo", .vStr "foo"), ("bar", .vStr "bar"), ("baz", .vStr "baz")] ∧
    nodupKeys
      [("foo", .vStr "foo"), ("bar", .vStr "bar"), ("baz", .vStr "baz")] ∧
    ∃ i, (ctor.construct dBaz []).1 = .ok i ∧
      (∀ k v,
        (k, v) ∈
          [("foo", Value.vStr "foo"), ("bar", Value.vStr "bar"),
            ("baz", Value.vStr "baz")] →
        getField i.fields k = some v) ∧
      (∀ m, lookupMethod i.protos m =
        lookupLeafFirst (ctor.chainClasses dBaz) m) ∧
      (∀ m c, c ∈ ctor.chainClasses dBaz →
        (lookupOwn c.methods m).isSome = true →
        (lookupMethod i.protos m).isSome = true) :=
  ⟨rfl, by decide,
    c1_chain_fields_and_methods dBaz [] _ rfl (by decide)⟩

/-- C4: materialization replays the initializers root to leaf into one
shared accumulator: on success every field of the instance holds the value
of the last assignment to that name in the root-to-leaf concatenation of all
levels' assignment streams, so when two levels assign the same field the
later level's assignment wins, and no error is raised by the collision. -/
theorem c4_replay_order_last_write_wins (D : ctor) (st : ArmState)
    (flat : Fields) (hflat : ctor.flatEntries D = .ok flat) :
    ∃ i, (ctor.construct D st).1 = .ok i ∧
      ∀ k, getField i.fields k = lastVal flat k := by
  obtain ⟨i, hok, _, hf⟩ := construct_ok D st flat hflat
  exact ⟨i, hok, hf⟩

/-- C4 witness: a two-level chain whose root assigns `x = 1` and whose leaf
assigns `x = 2`: construction succeeds and the leaf's write wins. -/
theorem c4_witness :
    ctor.flatEntries dShadow = .ok [("x", .vNat 1), ("x", .vNat 2)] ∧
    lastVal [("x", Value.vNat 1), ("x", Value.vNat 2)] "x" =
      some (Value.vNat 2) ∧
    ∃ i, (ctor.construct dShadow []).1 = .ok i ∧
      ∀ k, getField i.fields k =
        lastVal [("x", Value.vNat 1), ("x", Value.vNat 2)] k :=
  ⟨rfl, by decide, c4_replay_order_last_write_wins dShadow [] _ rfl⟩

/-- C8: `construct()` raises an error exactly when some initializer raises
one; the error is the first failing initializer's error in root-to-leaf
order, propagated unmodified, and exactly when there is such a failure no
instance is produced (the partially filled record is discarded). -/
theorem c8_error_iff_init_error (D : ctor) (st : ArmState) :
    errOf (ctor.construct D st).1 = ctor.firstInitError D ∧
    (okOf (ctor.construct D st).1).isSome =
      (ctor.firstInitError D).isNone := by
  cases hfe : ctor.flatEntries D with
  | error e =>
      have h := construct_error D st e hfe
      have hf := flatEntries_error_eq D
      rw [hfe] at hf
      simp only [errOf] at hf
      rw [h, ← hf]
      simp [errOf, okOf]
  | ok flat =>
      obtain ⟨i, hok, _, _⟩ := construct_ok D st flat hfe
      have hf := flatEntries_error_eq D
      rw [hfe] at hf
      simp only [errOf] at hf
      rw [hok, ← hf]
      simp [errOf, okOf]

/-- C8 witness evaluation: a two-level chain whose leaf initializer throws
`"boom"`: `construct` propagates exactly that error and yields no
instance. -/
theorem c8_example :
    errOf (ctor.construct dFail []).1 = some "boom" ∧
    (okOf (ctor.construct dFail []).1).isSome = false :=
  ⟨by decide, by decide⟩

/-- C9: the two materialization strategies present in the source — the first
revision's apply-on-accumulator (`this.ctor.apply(obj, this.params)`,
ctor.ts 79-111) and the current revision's run-through-`new`-then-copy
(ctor.ts 352-394) — agree on every descriptor chain whose initializers only
assign fields (the modelled class of initializers): they fail with the same
error, and on success every field name carries the same value. -/
theorem c9_apply_copy_equiv (D : ctor) : ∀ (self : Fields) (st : ArmState),
    errOf (ctor.constructOnApply D self) =
      errOf (ctor.constructOn D self st).1 ∧
    ∀ k, (okOf (ctor.constructOnApply D self)).map (fun f => getField f k) =
      (okOf (ctor.constructOn D self st).1).map
        (fun fp => getField fp.1 k) := by
  induction D with
  | base clazz params =>
      intro self st
      cases hinit : clazz.init params with
      | error e =>
          simp [ctor.constructOnApply, ctor.constructOn, hinit, errOf, okOf,
            Except.map]
      | ok es =>
          constructor
          · simp [ctor.constructOnApply, ctor.constructOn, hinit, errOf,
              Except.map]
          · intro k
            simp only [ctor.constructOnApply, ctor.constructOn, hinit,
              Except.map, okOf, Option.map]
            rw [getField_assign_copy]
  | extend parent clazz params ih =>
      intro self st
      obtain ⟨ihe, ihf⟩ := ih self st
      rcases hcp : ctor.constructOn parent self st with ⟨r1, st1⟩
      rw [hcp] at ihe ihf
      simp only at ihe ihf
      cases hap : ctor.constructOnApply parent self with
      | error e =>
          rw [hap] at ihe ihf
          cases r1 with
          | error e2 =>
              have he : e = e2 := by simpa [errOf] using ihe
              subst he
              simp [ctor.constructOnApply, ctor.constructOn, hap, hcp, errOf,
                okOf, Except.bind]
          | ok fp => simp [errOf] at ihe
      | ok f1 =>
          rw [hap] at ihe ihf
          cases r1 with
          | error e2 => simp [errOf] at ihe
          | ok fp =>
              obtain ⟨f2, pp⟩ := fp
              have hff : ∀ k, getField f1 k = getField f2 k := by
                intro k
                have hk := ihf k
                simpa [okOf, Option.map] using hk
              cases hinit : clazz.init params with
              | error e =>
                  simp [ctor.constructOnApply, ctor.constructOn, hap, hcp,
                    hinit, errOf, okOf, Except.bind, Except.map]
              | ok es =>
                  constructor
                  · simp [ctor.constructOnApply, ctor.constructOn, hap, hcp,
                      hinit, errOf, Except.bind, Except.map]
                  · intro k
                    simp only [ctor.constructOnApply, ctor.constructOn, hap,
                      hcp, hinit, Except.bind, Except.map, okOf, Option.map]
                    rw [getField_assign_copy, getField_assignEntries,
                      getField_assignEntries]
                    cases lastVal es k <;> simp [hff k]

/-! ### C2: the armed membership test -/

/-- The `P` / `X` pair for the C2 counterexample: `X` extends `P`. -/
def pClass : Class := ⟨6, fun _ => .ok [("p", .vNat 0)], []⟩

def xClass : Class := ⟨7, fun _ => .ok [("x", .vNat 0)], []⟩

def dP : ctor := ctor.new pClass []

def dX : ctor := (fromCtor dP).new xClass []

/-- C2 counterexample: arm `xClass` by constructing `dX` (chain `P ← X`)
from a clean state, then construct a plain `P` instance from `dP`.  `X`
contributed no level to that instance's chain (its identity is absent from
the instance's prototype constructors), yet the installed membership test
for `X` — the bound `hasInstance` of `dX`, which falls back to its parent
descriptor's test — answers `true`, contradicting the claim that it returns
false whenever `X` did not contribute a level. -/
theorem c2_counterexample :
    ∃ i, (ctor.construct dP (ctor.construct dX []).2).1 = .ok i ∧
      (getPrototypeConstructors i.protos).contains xClass.cid = false ∧
      armedInstanceOf (ctor.construct dP (ctor.construct dX []).2).2
        xClass.cid i.protos = some true := by
  refine ⟨⟨[("p", .vNat 0)], .level pClass .basePrototype⟩, rfl, ?_, ?_⟩
  · decide
  · decide

/-- C2 (amended): for an armed declared type `X`, the installed membership
test is the bound `hasInstance` of the descriptor that armed `X`, and it
answers `true` exactly when SOME declared type of that arming descriptor's
chain (`X` itself or one of its chain ancestors) occurs among the instance's
prototype-chain constructors.  In particular it answers `true` whenever `X`
contributed a level to the instance's chain, but — unlike the original
claim — it can also answer `true` when `X` did not contribute and an
ancestor type from `X`'s arming chain did. -/
theorem c2_amended_membership (st : ArmState) (x : Nat) (d : ctor)
    (protos : Proto) (harm : lookupArm st x = some d)
    (hinv : armInv st = true) :
    armedInstanceOf st x protos =
      some ((ctor.chainCids d).any
        (fun c => (getPrototypeConstructors protos).contains c)) ∧
    ((getPrototypeConstructors protos).contains x = true →
      armedInstanceOf st x protos = some true) := by
  constructor
  · simp [armedInstanceOf, harm, hasInstance_eq_any]
  · intro hmem
    have hcid : (ctor.clazzOf d).cid = x := armInv_lookup st x d hinv harm
    simp only [armedInstanceOf, harm, Option.map]
    rw [hasInstance_of_head_mem d protos (by rw [hcid]; exact hmem)]

/-- C2 amended witness: in the armed state produced by constructing `dX`,
the membership test for `X` on the plain `P` instance equals the chain check
of `dX` (which is `true` here), and the test for `P` on that instance is
`true` because `P` contributed. -/
theorem c2_amended_witness :
    (armedInstanceOf (ctor.construct dX []).2 xClass.cid
        (Proto.level pClass Proto.basePrototype) =
      some ((ctor.chainCids dX).any
        (fun c => (getPrototypeConstructors
          (Proto.level pClass Proto.basePrototype)).contains c)) ∧
    ((getPrototypeConstructors
        (Proto.level pClass Proto.basePrototype)).contains xClass.cid = true →
      armedInstanceOf (ctor.construct dX []).2 xClass.cid
        (Proto.level pClass Proto.basePrototype) = some true)) ∧
    (armedInstanceOf (ctor.construct dX []).2 pClass.cid
        (Proto.level pClass Proto.basePrototype) =
      some ((ctor.chainCids dP).any
        (fun c => (getPrototypeConstructors
          (Proto.level pClass Proto.basePrototype)).contains c)) ∧
    ((getPrototypeConstructors
        (Proto.level pClass Proto.basePrototype)).contains pClass.cid = true →
      armedInstanceOf (ctor.construct dX []).2 pClass.cid
        (Proto.level pClass Proto.basePrototype) = some true)) :=
  ⟨c2_amended_membership (ctor.construct dX []).2 xClass.cid dX
      (Proto.level pClass Proto.basePrototype) rfl (by decide),
   c2_amended_membership (ctor.construct dX []).2 pClass.cid dP
      (Proto.level pClass Proto.basePrototype) rfl (by decide)⟩

/-! ### C3: ancestor delegation -/

def mAClass : Class := ⟨11, fun _ => .ok [("a", .vNat 1)], [("m", 100)]⟩

def mBClass : Class := ⟨12, fun _ => .ok [("b", .vNat 2)], [("m", 200)]⟩

def mCClass : Class := ⟨13, fun _ => .ok [("c", .vNat 3)], [("m", 300)]⟩

/-- A three-level chain `mA ← mB ← mC`, every level defining method `m`. -/
def dM3 : ctor :=
  (fromCtor ((fromCtor (ctor.new mAClass [])).new mBClass [])).new mCClass []

/-- C3, the code evaluated at the failing input: in the materialized
three-level chain `mA ← mB ← mC` (methods `m` with ids 100, 200, 300 at
levels 0, 1, 2), ordinary resolution finds the leaf's `m` (300), and a
delegation access from the leaf method correctly yields level 1's `m` (200)
rebound to the receiver.  But the `_super` computation depends only on the
receiver (`Object.getPrototypeOf(this)` — the receiver's leaf table), and the
level-1 method executes with `this` rebound to the original receiver, so the
delegation access it performs is again `superAccess i "m" = some 200` — its
own method, not level 0's `m` (100) as the claim requires: chained
delegation never advances past level k-1 (at runtime, infinite
recursion). -/
theorem c3_super_chain_failing_input :
    ∃ i, (ctor.construct dM3 []).1 = .ok i ∧
      lookupMethod i.protos "m" = some 300 ∧
      superAccess i "m" = some 200 ∧
      ¬ superAccess i "m" = some 100 := by
  refine ⟨⟨[("a", .vNat 1), ("b", .vNat 2), ("c", .vNat 3)],
    .level mCClass (.level mBClass (.level mAClass .basePrototype))⟩,
    rfl, ?_, ?_, ?_⟩
  · decide
  · decide
  · decide

/-! ### C10: armed types and native instances -/

/-- A plain `new C(...)` on a declared class: the initializer runs on a
fresh object whose prototype chain is the class's real chain —
`C.prototype` (whose `constructor` is `C`) followed by the declared base
chain (`Base.prototype` for classes extending `Implementation<T>()`,
`Object.prototype` for plain classes). -/
def nativeNew (C : Class) (ps : List Value) (superChain : Proto) :
    Except JsErr Instance :=
  (C.init ps).map (fun es => ⟨assignEntries [] es, .level C superChain⟩)

theorem cid_mem_chainCids (d : ctor) :
    (ctor.clazzOf d).cid ∈ ctor.chainCids d :=
  List.mem_map_of_mem Class.cid (clazzOf_mem_chainClasses d)

/-- C10: arming a declared type's membership predicate does not misclassify
natively constructed instances: once class `C`'s predicate has been
installed (necessarily by a descriptor whose own class is `C`), an instance
created by a plain `new C(...)` still satisfies `instanceof C` — the
predicate finds `C` at the head of the instance's prototype-chain
constructors. -/
theorem c10_armed_native_instances (st : ArmState) (C : Class)
    (ps : List Value) (superChain : Proto) (i : Instance)
    (hinv : armInv st = true)
    (harm : (lookupArm st C.cid).isSome = true)
    (hnew : nativeNew C ps superChain = .ok i) :
    armedInstanceOf st C.cid i.protos = some true := by
  cases hl : lookupArm st C.cid with
  | none => rw [hl] at harm; cases harm
  | some d =>
      have hcid : (ctor.clazzOf d).cid = C.cid :=
        armInv_lookup st C.cid d hinv hl
      cases hinit : C.init ps with
      | error e =>
          unfold nativeNew at hnew
          rw [hinit] at hnew
          cases hnew
      | ok es =>
          unfold nativeNew at hnew
          rw [hinit] at hnew
          simp only [Except.map] at hnew
          injection hnew with hi
          subst hi
          simp only [armedInstanceOf, hl, Option.map]
          rw [hasInstance_of_head_mem d _ ?_]
          rw [hcid]
          exact contains_of_mem _ _ (by simp [getPrototypeConstructors])

/-- C10 witness: construct `dFoo` once (arming `fooClass`), then a plain
`new fooClass()` instance still passes the armed `instanceof fooClass`. -/
theorem c10_witness :
    armInv (ctor.construct dFoo []).2 = true ∧
    (lookupArm (ctor.construct dFoo []).2 fooClass.cid).isSome = true ∧
    nativeNew fooClass [] Proto.basePrototype =
      .ok ⟨[("foo", Value.vStr "foo")],
        Proto.level fooClass Proto.basePrototype⟩ ∧
    armedInstanceOf (ctor.construct dFoo []).2 fooClass.cid
      (Proto.level fooClass Proto.basePrototype) = some true :=
  ⟨by decide, by decide, rfl,
   c10_armed_native_instances (ctor.construct dFoo []).2 fooClass []
     Proto.basePrototype
     ⟨[("foo", Value.vStr "foo")], Proto.level fooClass Proto.basePrototype⟩
     (by decide) (by decide) rfl⟩

/-! ### C6: arming is once per type -/

def nineClass : Class := ⟨9, fun _ => .ok [], []⟩

def d9 : ctor := ctor.new nineClass []

def st9 : ArmState := [(9, d9)]

/-- C6: the membership predicate is installed at most once per declared
type: a `construct()` leaves every predicate already installed before it
unchanged (skipped by the still-the-default guard), and a successful
`construct()` leaves every level of its chain, root through leaf, armed. -/
theorem c6_arm_once_per_type (D : ctor) (st : ArmState) :
    (∀ x a, lookupArm st x = some a →
      lookupArm (ctor.construct D st).2 x = some a) ∧
    (∀ i, (ctor.construct D st).1 = .ok i →
      ∀ x, x ∈ ctor.chainCids D →
        (lookupArm (ctor.construct D st).2 x).isSome = true) :=
  ⟨fun x a h => construct_preserves_arm D st x a h,
   fun i hok x hx => construct_arms_chain D st i hok x hx⟩

/-- C6 witness: with class 9 already armed by `d9`, constructing the
two-level `dBar` chain leaves class 9's installed predicate unchanged and
arms both levels (`fooClass` and `barClass`). -/
theorem c6_witness :
    lookupArm (ctor.construct dBar st9).2 9 = some d9 ∧
    (lookupArm (ctor.construct dBar st9).2 fooClass.cid).isSome = true ∧
    (lookupArm (ctor.construct dBar st9).2 barClass.cid).isSome = true :=
  ⟨(c6_arm_once_per_type dBar st9).1 9 d9 rfl,
   (c6_arm_once_per_type dBar st9).2 _ rfl fooClass.cid (by decide),
   (c6_arm_once_per_type dBar st9).2 _ rfl barClass.cid (by decide)⟩

/-! ### C5: repeated materialization -/

def emptyHeap : Heap := ⟨0, []⟩

/-- C5: calling `construct()` twice on one descriptor yields two instances
with distinct identities (different addresses), structurally equal field
data (every field name holds the same value in both), and no shared mutable
field storage: mutating a field of the first leaves every field of the
second unchanged. -/
theorem c5_construct_twice (D : ctor) (st : ArmState) (hp : Heap)
    (hok : (okOf (ctor.construct D st).1).isSome = true) :
    ∃ a1 a2,
      (constructH D hp st).1 = .ok a1 ∧
      (constructH D (constructH D hp st).2.1 (constructH D hp st).2.2).1 =
        .ok a2 ∧
      a1 ≠ a2 ∧
      (∀ k, heapField
          (constructH D (constructH D hp st).2.1
            (constructH D hp st).2.2).2.1 a1 k =
        heapField
          (constructH D (constructH D hp st).2.1
            (constructH D hp st).2.2).2.1 a2 k) ∧
      (∀ k v k2, heapField
          (setInstField
            (constructH D (constructH D hp st).2.1
              (constructH D hp st).2.2).2.1 a1 k v) a2 k2 =
        heapField
          (constructH D (constructH D hp st).2.1
            (constructH D hp st).2.2).2.1 a2 k2) := by
  rcases hc1 : ctor.construct D st with ⟨res1, st1⟩
  rw [hc1] at hok
  simp only [okOf] at hok
  cases res1 with
  | error e => simp at hok
  | ok i =>
      have hprev : (ctor.construct D st1).1 = .ok i := by
        rw [construct_fst_state_irrel D st1 st, hc1]
      rcases hc2 : ctor.construct D st1 with ⟨res2, st2⟩
      rw [hc2] at hprev
      simp only at hprev
      subst hprev
      refine ⟨hp.nextAddr, hp.nextAddr + 1, ?_, ?_, by omega, ?_, ?_⟩
      · simp [constructH, hc1, alloc]
      · simp [constructH, hc1, hc2, alloc]
      · intro k
        have hne : hp.nextAddr + 1 ≠ hp.nextAddr := by omega
        simp [constructH, hc1, hc2, alloc, heapField, lookupMem, hne]
      · intro k v k2
        exact heapField_setInstField_ne _ hp.nextAddr (hp.nextAddr + 1) k v
          (by omega) k2

/-- C5 witness: constructing `dFoo` twice on the empty heap. -/
theorem c5_witness :
    (okOf (ctor.construct dFoo []).1).isSome = true ∧
    ∃ a1 a2,
      (constructH dFoo emptyHeap []).1 = .ok a1 ∧
      (constructH dFoo (constructH dFoo emptyHeap []).2.1
        (constructH dFoo emptyHeap []).2.2).1 = .ok a2 ∧
      a1 ≠ a2 ∧
      (∀ k, heapField
          (constructH dFoo (constructH dFoo emptyHeap []).2.1
            (constructH dFoo emptyHeap []).2.2).2.1 a1 k =
        heapField
          (constructH dFoo (constructH dFoo emptyHeap []).2.1
            (constructH dFoo emptyHeap []).2.2).2.1 a2 k) ∧
      (∀ k v k2, heapField
          (setInstField
            (constructH dFoo (constructH dFoo emptyHeap []).2.1
              (constructH dFoo emptyHeap []).2.2).2.1 a1 k v) a2 k2 =
        heapField
          (constructH dFoo (constructH dFoo emptyHeap []).2.1
            (constructH dFoo emptyHeap []).2.2).2.1 a2 k2) :=
  ⟨by decide, c5_construct_twice dFoo [] emptyHeap (by decide)⟩

/-! ### C7: immutable, shared, never-consumed descriptors -/

/-- C7: a descriptor is immutable after creation and shared rather than
consumed: (i) chain extension wraps the parent descriptor itself, unchanged,
as the child's parent, and records exactly the child's target type and
arguments; (ii) the construction result of the parent is a function of the
descriptor alone — independent of the arming state, hence the same however
many times and after whatever other materializations it is constructed;
(iii) two sibling children of the one shared parent materialize to two
independent instances: distinct addresses, mutation of either leaves the
other unchanged, and both pass the armed membership test of the shared
parent's declared type. -/
theorem c7_shared_parent_immutability (d : ctor) (c1 c2 : Class)
    (p1 p2 : List Value) (st : ArmState) (hp : Heap)
    (hinv : armInv st = true)
    (hok1 :
      (okOf (ctor.construct ((fromCtor d).new c1 p1) st).1).isSome = true)
    (hok2 :
      (okOf (ctor.construct ((fromCtor d).new c2 p2) st).1).isSome = true) :
    ctor.parentCtorOf ((fromCtor d).new c1 p1) = some d ∧
    ctor.clazzOf ((fromCtor d).new c1 p1) = c1 ∧
    ctor.paramsOf ((fromCtor d).new c1 p1) = p1 ∧
    (∀ st1 st2, (ctor.construct d st1).1 = (ctor.construct d st2).1) ∧
    ∃ a1 a2 i1 i2,
      (constructH ((fromCtor d).new c1 p1) hp st).1 = .ok a1 ∧
      (constructH ((fromCtor d).new c2 p2)
        (constructH ((fromCtor d).new c1 p1) hp st).2.1
        (constructH ((fromCtor d).new c1 p1) hp st).2.2).1 = .ok a2 ∧
      a1 ≠ a2 ∧
      lookupMem (constructH ((fromCtor d).new c2 p2)
        (constructH ((fromCtor d).new c1 p1) hp st).2.1
        (constructH ((fromCtor d).new c1 p1) hp st).2.2).2.1.mem a1 =
          some i1 ∧
      lookupMem (constructH ((fromCtor d).new c2 p2)
        (constructH ((fromCtor d).new c1 p1) hp st).2.1
        (constructH ((fromCtor d).new c1 p1) hp st).2.2).2.1.mem a2 =
          some i2 ∧
      (∀ k v k2, heapField
          (setInstField (constructH ((fromCtor d).new c2 p2)
            (constructH ((fromCtor d).new c1 p1) hp st).2.1
            (constructH ((fromCtor d).new c1 p1) hp st).2.2).2.1 a1 k v)
          a2 k2 =
        heapField (constructH ((fromCtor d).new c2 p2)
          (constructH ((fromCtor d).new c1 p1) hp st).2.1
          (constructH ((fromCtor d).new c1 p1) hp st).2.2).2.1 a2 k2) ∧
      (∀ k v k2, heapField
          (setInstField (constructH ((fromCtor d).new c2 p2)
            (constructH ((fromCtor d).new c1 p1) hp st).2.1
            (constructH ((fromCtor d).new c1 p1) hp st).2.2).2.1 a2 k v)
          a1 k2 =
        heapField (constructH ((fromCtor d).new c2 p2)
          (constructH ((fromCtor d).new c1 p1) hp st).2.1
          (constructH ((fromCtor d).new c1 p1) hp st).2.2).2.1 a1 k2) ∧
      armedInstanceOf (constructH ((fromCtor d).new c2 p2)
        (constructH ((fromCtor d).new c1 p1) hp st).2.1
        (constructH ((fromCtor d).new c1 p1) hp st).2.2).2.2
        (ctor.clazzOf d).cid i1.protos = some true ∧
      armedInstanceOf (constructH ((fromCtor d).new c2 p2)
        (constructH ((fromCtor d).new c1 p1) hp st).2.1
        (constructH ((fromCtor d).new c1 p1) hp st).2.2).2.2
        (ctor.clazzOf d).cid i2.protos = some true := by
  obtain ⟨flat1, hfe1⟩ :=
    flatEntries_ok_of_construct_ok ((fromCtor d).new c1 p1) st hok1
  obtain ⟨i1, hc1ok, hpr1, hf1⟩ :=
    construct_ok ((fromCtor d).new c1 p1) st flat1 hfe1
  rcases hc1 : ctor.construct ((fromCtor d).new c1 p1) st with ⟨res1, st1⟩
  rw [hc1] at hc1ok
  simp only at hc1ok
  subst hc1ok
  obtain ⟨flat2, hfe2⟩ :=
    flatEntries_ok_of_construct_ok ((fromCtor d).new c2 p2) st hok2
  obtain ⟨i2, hc2ok, hpr2, hf2⟩ :=
    construct_ok ((fromCtor d).new c2 p2) st1 flat2 hfe2
  rcases hc2 : ctor.construct ((fromCtor d).new c2 p2) st1 with ⟨res2, st2⟩
  rw [hc2] at hc2ok
  simp only at hc2ok
  subst hc2ok
  have hinv1 : armInv st1 = true := by
    have h := armInv_construct ((fromCtor d).new c1 p1) st hinv
    rw [hc1] at h
    exact h
  have hmem1 :
      (ctor.clazzOf d).cid ∈ ctor.chainCids ((fromCtor d).new c1 p1) := by
    show (ctor.clazzOf d).cid ∈ c1.cid :: ctor.chainCids d
    exact List.mem_cons_of_mem _ (cid_mem_chainCids d)
  have hmem2 :
      (ctor.clazzOf d).cid ∈ ctor.chainCids ((fromCtor d).new c2 p2) := by
    show (ctor.clazzOf d).cid ∈ c2.cid :: ctor.chainCids d
    exact List.mem_cons_of_mem _ (cid_mem_chainCids d)
  have harm1 : (lookupArm st1 (ctor.clazzOf d).cid).isSome = true := by
    have h := construct_arms_chain ((fromCtor d).new c1 p1) st i1
      (by rw [hc1]) (ctor.clazzOf d).cid hmem1
    rw [hc1] at h
    exact h
  cases hla : lookupArm st1 (ctor.clazzOf d).cid with
  | none => rw [hla] at harm1; cases harm1
  | some A =>
      have hpres : lookupArm st2 (ctor.clazzOf d).cid = some A := by
        have h := construct_preserves_arm ((fromCtor d).new c2 p2) st1
          (ctor.clazzOf d).cid A hla
        rw [hc2] at h
        exact h
      have hcidA : (ctor.clazzOf A).cid = (ctor.clazzOf d).cid :=
        armInv_lookup st1 _ A hinv1 hla
      have hgpc1 : (getPrototypeConstructors i1.protos).contains
          (ctor.clazzOf A).cid = true := by
        rw [hcidA, hpr1, gpc_buildProto]
        apply contains_of_mem
        apply List.mem_append_left
        exact hmem1
      have hgpc2 : (getPrototypeConstructors i2.protos).contains
          (ctor.clazzOf A).cid = true := by
        rw [hcidA, hpr2, gpc_buildProto]
        apply contains_of_mem
        apply List.mem_append_left
        exact hmem2
      have hmember1 :
          armedInstanceOf st2 (ctor.clazzOf d).cid i1.protos = some true := by
        simp only [armedInstanceOf, hpres, Option.map]
        rw [hasInstance_of_head_mem A _ hgpc1]
      have hmember2 :
          armedInstanceOf st2 (ctor.clazzOf d).cid i2.protos = some true := by
        simp only [armedInstanceOf, hpres, Option.map]
        rw [hasInstance_of_head_mem A _ hgpc2]
      refine ⟨rfl, rfl, rfl, fun s1 s2 => construct_fst_state_irrel d s1 s2,
        hp.nextAddr, hp.nextAddr + 1, i1, i2, ?_, ?_, by omega, ?_, ?_, ?_,
        ?_, ?_, ?_⟩
      · simp [constructH, hc1, alloc]
      · simp [constructH, hc1, hc2, alloc]
      · have hne : hp.nextAddr + 1 ≠ hp.nextAddr := by omega
        simp [constructH, hc1, hc2, alloc, lookupMem, hne]
      · simp [constructH, hc1, hc2, alloc, lookupMem]
      · intro k v k2
        exact heapField_setInstField_ne _ hp.nextAddr (hp.nextAddr + 1) k v
          (by omega) k2
      · intro k v k2
        exact heapField_setInstField_ne _ (hp.nextAddr + 1) hp.nextAddr k v
          (by omega) k2
      · simp only [constructH, hc1, alloc, hc2]
        exact hmember1
      · simp only [constructH, hc1, alloc, hc2]
        exact hmember2

/-- C7 witness: `dFoo` shared as the parent of two sibling children
(`barClass` and `bazClass`), materialized on the empty heap from a clean
arming state. -/
theorem c7_witness :
    armInv ([] : ArmState) = true ∧
    (okOf (ctor.construct ((fromCtor dFoo).new barClass []) []).1).isSome =
      true ∧
    (okOf (ctor.construct ((fromCtor dFoo).new bazClass []) []).1).isSome =
      true ∧
    (ctor.parentCtorOf ((fromCtor dFoo).new barClass []) = some dFoo ∧
    ctor.clazzOf ((fromCtor dFoo).new barClass []) = barClass ∧
    ctor.paramsOf ((fromCtor dFoo).new barClass []) = [] ∧
    (∀ st1 st2, (ctor.construct dFoo st1).1 = (ctor.construct dFoo st2).1) ∧
    ∃ a1 a2 i1 i2,
      (constructH ((fromCtor dFoo).new barClass []) emptyHeap []).1 =
        .ok a1 ∧
      (constructH ((fromCtor dFoo).new bazClass [])
        (constructH ((fromCtor dFoo).new barClass []) emptyHeap []).2.1
        (constructH ((fromCtor dFoo).new barClass []) emptyHeap []).2.2).1 =
          .ok a2 ∧
      a1 ≠ a2 ∧
      lookupMem (constructH ((fromCtor dFoo).new bazClass [])
        (constructH ((fromCtor dFoo).new barClass []) emptyHeap []).2.1
        (constructH ((fromCtor dFoo).new barClass [])
          emptyHeap []).2.2).2.1.mem a1 = some i1 ∧
      lookupMem (constructH ((fromCtor dFoo).new bazClass [])
        (constructH ((fromCtor dFoo).new barClass []) emptyHeap []).2.1
        (constructH ((fromCtor dFoo).new barClass [])
          emptyHeap []).2.2).2.1.mem a2 = some i2 ∧
      (∀ k v k2, heapField
          (setInstField (constructH ((fromCtor dFoo).new bazClass [])
            (constructH ((fromCtor dFoo).new barClass []) emptyHeap []).2.1
            (constructH ((fromCtor dFoo).new barClass [])
              emptyHeap []).2.2).2.1 a1 k v) a2 k2 =
        heapField (constructH ((fromCtor dFoo).new bazClass [])
          (constructH ((fromCtor dFoo).new barClass []) emptyHeap []).2.1
          (constructH ((fromCtor dFoo).new barClass [])
            emptyHeap []).2.2).2.1 a2 k2) ∧
      (∀ k v k2, heapField
          (setInstField (constructH ((fromCtor dFoo).new bazClass [])
            (constructH ((fromCtor dFoo).new barClass []) emptyHeap []).2.1
            (constructH ((fromCtor dFoo).new barClass [])
              emptyHeap []).2.2).2.1 a2 k v) a1 k2 =
        heapField (constructH ((fromCtor dFoo).new bazClass [])
          (constructH ((fromCtor dFoo).new barClass []) emptyHeap []).2.1
          (constructH ((fromCtor dFoo).new barClass [])
            emptyHeap []).2.2).2.1 a1 k2) ∧
      armedInstanceOf (constructH ((fromCtor dFoo).new bazClass [])
        (constructH ((fromCtor dFoo).new barClass []) emptyHeap []).2.1
        (constructH ((fromCtor dFoo).new barClass []) emptyHeap []).2.2).2.2
        (ctor.clazzOf dFoo).cid i1.protos = some true ∧
      armedInstanceOf (constructH ((fromCtor dFoo).new bazClass [])
        (constructH ((fromCtor dFoo).new barClass []) emptyHeap []).2.1
        (constructH ((fromCtor dFoo).new barClass []) emptyHeap []).2.2).2.2
        (ctor.clazzOf dFoo).cid i2.protos = some true) :=
  ⟨by decide, by decide, by decide,
   c7_shared_parent_immutability dFoo barClass bazClass [] [] [] emptyHeap
     (by decide) (by decide) (by decide)⟩

end CtorExp
